import Mathlib

/-
Shallow embedding of the chunked-storage core of `extensions/chunkloader.js`
(function `VbufChunkLoader`).

Modelling conventions:
- A document line is a `List Char` (JS string without the byte encoding layer).
- The gzip + UTF-8 codec layers are injective and lossless on the stored
  payload, so a compressed chunk is modelled as the joined text it encodes:
  `compressChunk` stores `joinNl lines` (the model of `lines.join('\n')`
  followed by encode/gzip) and `decompressChunk` applies `splitNl`
  (gunzip/decode followed by `text.split('\n')`).
- `decompressChunk` on an out-of-bounds index is `none`: in the source,
  `chunks[chunkIndex]` is `undefined` and piping it through the gzip
  `DecompressionStream` rejects the promise with a `TypeError`.
- The asynchronous `loadChunks` reload started on a window cache miss is kept
  explicit: the miss records the requested chunk index in a `pending` queue,
  and `completeTask` later applies the whole body of one in-flight reload.
  The scheduler (which pending reload settles next) is the model's free choice,
  matching the unspecified completion order of overlapping async reloads.
- `Viewport` is external to this core (it lives in vbuf.js, not under src/).
  Modelled from the spec: `start` is the absolute first visible line and
  `size` the visible line count, so the inclusive loop bound `Viewport.end`
  of the source corresponds to `start + size - 1` and the hit path produces
  exactly `size` display strings, as §4.3 of the spec states.
-/

/-- A document line: the characters of one JS string. -/
abbrev Line := List Char

/-- Model of `lines.join('\n')` from `compressChunk` (chunkloader.js:46). -/
def joinNl : List Line → List Char
  | [] => []
  | [l] => l
  | l :: l2 :: ls => l ++ '\n' :: joinNl (l2 :: ls)

/-- Model of `text.split('\n')` from `decompressChunk` (chunkloader.js:112).
JS `split` on the empty string yields `[""]`, which this definition mirrors:
`splitNl [] = [[]]`. -/
def splitNl : List Char → List Line
  | [] => [[]]
  | c :: cs =>
    match splitNl cs with
    | [] => [[]]
    | r :: rs => if c = '\n' then [] :: r :: rs else (c :: r) :: rs

/-- The per-session state captured by the closure in `VbufChunkLoader`
(chunkloader.js:30-39), plus the queue of in-flight window reloads. -/
structure ChunkState where
  enabled : Bool
  chunks : List (List Char)
  chunkSize : Nat
  totalLines : Nat
  buffer : List Line
  currentChunkIndex : Int
  prevBuffer : List Line
  nextBuffer : List Line
  pending : List Nat
  editMode : String
  chunkedLineSource : Bool

/-- The hosting viewer's visible range (external collaborator). -/
structure Viewport where
  start : Nat
  size : Nat

/-- The state of the module before `activate` runs (chunkloader.js:30-39). -/
def initState : ChunkState :=
  { enabled := false, chunks := [], chunkSize := 50000, totalLines := 0,
    buffer := [], currentChunkIndex := -1, prevBuffer := [], nextBuffer := [],
    pending := [], editMode := "write", chunkedLineSource := false }

/-- `compressChunk`'s store-back step (chunkloader.js:73-77): overwrite in
place when the index exists, otherwise `push` at the end of the array. -/
def writeChunk (chunks : List (List Char)) (i : Nat) (text : List Char) :
    List (List Char) :=
  if i < chunks.length then chunks.set i text else chunks ++ [text]

/-- `decompressChunk` (chunkloader.js:84-113): reading an existing chunk
yields its decoded lines; reading past the end of `chunks` feeds `undefined`
into the decompression stream, which rejects (modelled as `none`). -/
def decompressChunk (chunks : List (List Char)) (i : Nat) : Option (List Line) :=
  if h : i < chunks.length then some (splitNl (chunks.get ⟨i, h⟩)) else none

/-- The `"..."` placeholder row returned while a reload is in flight
(chunkloader.js:151). -/
def placeholderLine : Line := ['.', '.', '.']

/-- One display line of the cache-hit path of `getChunkedLines`
(chunkloader.js:156-169): pick the buffer whose chunk index owns absolute
line `i`; a missing entry (or no matching buffer) is the empty string. -/
def lineAt (sci : Int) (prevB curB nextB : List Line) (cs : Nat) (i : Nat) :
    Line :=
  let chunkIdx : Int := ((i / cs : Nat) : Int)
  let lineInChunk : Nat := i % cs
  if chunkIdx = sci - 1 ∧ prevB ≠ [] then prevB.getD lineInChunk []
  else if chunkIdx = sci then curB.getD lineInChunk []
  else if chunkIdx = sci + 1 ∧ nextB ≠ [] then nextB.getD lineInChunk []
  else []

/-- The cache-hit result of `getChunkedLines` (chunkloader.js:154-170):
one display line per visible row. -/
def hitLines (vp : Viewport) (s : ChunkState) : List Line :=
  (List.range vp.size).map fun k =>
    lineAt ((vp.start / s.chunkSize : Nat) : Int) s.prevBuffer s.buffer
      s.nextBuffer s.chunkSize (vp.start + k)

/-- `getChunkedLines` (chunkloader.js:119-171), i.e. `resolve` of the spec.
On a miss it synchronously sets `currentChunkIndex`, queues the reload
(the body of `loadChunks` up to its first `await` runs synchronously,
so the index assignment at line 128 happens inside this call) and returns
placeholder rows; on a hit it reads the three resident buffers. -/
def getChunkedLines (vp : Viewport) (s : ChunkState) :
    List Line × ChunkState :=
  let sci : Nat := vp.start / s.chunkSize
  if s.currentChunkIndex ≠ (sci : Int) then
    (List.replicate vp.size placeholderLine,
      { s with currentChunkIndex := (sci : Int),
               pending := s.pending ++ [sci] })
  else
    (hitLines vp s, s)

/-- The remainder of the `loadChunks` body (chunkloader.js:131-147) for the
reload that was requested for chunk `t`: decompress `t` into `buffer`, then
the guarded neighbours into `prevBuffer`/`nextBuffer`. If the unguarded read
of chunk `t` rejects, none of the assignments happen. -/
def applyReload (s : ChunkState) (t : Nat) : ChunkState :=
  match decompressChunk s.chunks t with
  | none => s
  | some ls =>
    let pb := if 1 ≤ t ∧ t - 1 < s.chunks.length then
        (decompressChunk s.chunks (t - 1)).getD [] else []
    let nb := if t + 1 < s.chunks.length then
        (decompressChunk s.chunks (t + 1)).getD [] else []
    { s with buffer := ls, prevBuffer := pb, nextBuffer := nb }

/-- Settle the in-flight reload at position `k` of the pending queue.
Note that, matching the source, the reload commits its buffers without
comparing its requested index `t` against the live `currentChunkIndex`. -/
def completeTask (s : ChunkState) (k : Nat) : ChunkState :=
  match s.pending.get? k with
  | none => s
  | some t => { applyReload s t with pending := s.pending.eraseIdx k }

/-- The `while (remainingLines.length !== 0)` loop of `appendChunkedLines`
(chunkloader.js:194-224). `fuel` bounds the iteration count; whenever
`cs ≥ 1` a fuel of `remaining.length` is sufficient (each iteration places
at least one line), so the fuel never runs out on the modelled domain. -/
def appendLoop (cs : Nat) (fuel : Nat) (chunks : List (List Char))
    (totalLines sci spic : Nat) (remaining : List Line) :
    List (List Char) × Nat :=
  match fuel with
  | 0 => (chunks, totalLines)
  | fuel + 1 =>
    if remaining = [] then (chunks, totalLines)
    else
      let space := cs - spic
      let chunkLines :=
        if sci < chunks.length then (decompressChunk chunks sci).getD []
        else []
      if remaining.length ≤ space then
        (writeChunk chunks sci (joinNl (chunkLines ++ remaining)),
         totalLines + remaining.length)
      else
        appendLoop cs fuel
          (writeChunk chunks sci (joinNl (chunkLines ++ remaining.take space)))
          (totalLines + (remaining.take space).length) (sci + 1) 0
          (remaining.drop space)

/-- `appendChunkedLines` (chunkloader.js:177-227). If the tail chunk is the
window's resident `current` buffer, lines are pushed into that buffer first
(chunkloader.js:184-192) — note the source advances `totalLines` there
without writing the chunk store — and the spilled remainder then goes
through the store loop. -/
def appendChunkedLines (s : ChunkState) (newLines : List Line) : ChunkState :=
  let startChunkIndex := s.totalLines / s.chunkSize
  let startPosInChunk := s.totalLines % s.chunkSize
  if (startChunkIndex : Int) = s.currentChunkIndex then
    let remainingSpace := s.chunkSize - s.buffer.length
    let linesToCurrentChunk := newLines.take remainingSpace
    let remainingLines := newLines.drop remainingSpace
    let res := appendLoop s.chunkSize remainingLines.length s.chunks
      (s.totalLines + linesToCurrentChunk.length) (startChunkIndex + 1) 0
      remainingLines
    { s with buffer := s.buffer ++ linesToCurrentChunk,
             chunks := res.1, totalLines := res.2 }
  else
    let res := appendLoop s.chunkSize newLines.length s.chunks s.totalLines
      startChunkIndex startPosInChunk newLines
    { s with chunks := res.1, totalLines := res.2 }

/-- The distinct condition signalled by `activate` when the viewport does not
fit in a chunk (chunkloader.js:267-269). -/
def invalidConfigMsg : String := "invalid configuration"

/-- The distinct condition signalled by `ChunkLoader.appendLines` outside an
active session (chunkloader.js:343-345). -/
def notActivatedMsg : String := "not activated"

/-- `ChunkLoader.activate` (chunkloader.js:266-300). The guard throws before
any assignment, so on failure the prior state is returned untouched together
with the error; on success all session state is reset and the chunked
line-source and navigate mode are installed. -/
def activate (vpSize : Nat) (size : Nat) (s : ChunkState) :
    ChunkState × Option String :=
  if vpSize ≥ size then (s, some invalidConfigMsg)
  else
    ({ s with enabled := true, chunkSize := size, chunks := [], buffer := [],
              totalLines := 0, currentChunkIndex := -1, prevBuffer := [],
              nextBuffer := [], pending := [], editMode := "navigate",
              chunkedLineSource := true }, none)

/-- `ChunkLoader.appendLines` (chunkloader.js:342-347): guarded ingestion. -/
def appendLines (s : ChunkState) (lines : List Line) :
    ChunkState × Option String :=
  if s.enabled = false then (s, some notActivatedMsg)
  else (appendChunkedLines s lines, none)

/-- Fold a sequence of ingestion batches through `appendChunkedLines`. -/
def appendAll (s : ChunkState) (bs : List (List Line)) : ChunkState :=
  bs.foldl appendChunkedLines s

/-- All lines of a batch are free of embedded newlines — the codec contract's
hard precondition. -/
abbrev noNl (L : List Line) : Prop := ∀ l ∈ L, '\n' ∉ l

/-- `ceil(m / cs)` on naturals, the spec's chunk-count expression. -/
def ceilDivNat (m cs : Nat) : Nat := m / cs + if m % cs = 0 then 0 else 1

/-- Partition a document into chunk-sized slices: chunk `i` owns the line
range `[i*cs, (i+1)*cs)`, the final slice possibly partial. -/
def chunksOf (cs : Nat) (doc : List Line) : List (List Line) :=
  if cs = 0 ∨ doc = [] then []
  else doc.take cs :: chunksOf cs (doc.drop cs)
termination_by doc.length
decreasing_by
  rename_i h
  rw [not_or] at h
  have h1 : 0 < cs := Nat.pos_of_ne_zero h.1
  have h2 : 0 < doc.length := List.length_pos.mpr h.2
  simp only [List.length_drop]
  omega

/-- The session state right after a successful `activate size` (before the
repaint that `activate` itself triggers runs `getChunkedLines`). -/
def freshActive (size : Nat) : ChunkState :=
  { enabled := true, chunks := [], chunkSize := size, totalLines := 0,
    buffer := [], currentChunkIndex := -1, prevBuffer := [], nextBuffer := [],
    pending := [], editMode := "navigate", chunkedLineSource := true }

/-- The resident window buffers are consistent with the chunk indices they
are labelled with: each buffer only holds lines that exist below
`totalLines`. Quiescent states (no pending reload that already moved
`currentChunkIndex`) satisfy this. -/
abbrev WindowBounded (vp : Viewport) (s : ChunkState) : Prop :=
  let n := vp.start / s.chunkSize
  (s.prevBuffer = [] ∨
    (1 ≤ n ∧ (n - 1) * s.chunkSize + s.prevBuffer.length ≤ s.totalLines)) ∧
  (s.buffer = [] ∨ n * s.chunkSize + s.buffer.length ≤ s.totalLines) ∧
  (s.nextBuffer = [] ∨ (n + 1) * s.chunkSize + s.nextBuffer.length ≤ s.totalLines)

/- Concrete execution traces used by witnesses and counterexamples.
`demoBase` is a session activated with `chunkSize = 2` for a viewport of
height 1; the first repaint after activation resolves lines `[0, 1)`,
which is a cache miss, and the reload it schedules reads chunk 0 from the
still-empty store. -/

/-- Session state after `activate(2)` with a viewport of height 1. -/
def demoBase : ChunkState := (activate 1 2 initState).1

/-- State after the first repaint's `resolve(0, 1)`: a cache miss that sets
`currentChunkIndex := 0` and schedules a reload of chunk 0. -/
def demoMiss : ChunkState := (getChunkedLines ⟨0, 1⟩ demoBase).2

/-- State after that reload settles: the unguarded read of the nonexistent
chunk 0 rejects, so no buffer is assigned. -/
def demoLoaded : ChunkState := completeTask demoMiss 0

/-- State after `appendLines(["a"])` in that session: the tail chunk index 0
equals `currentChunkIndex`, so the single line goes to the resident buffer
only. -/
def c4state : ChunkState := (appendLines demoLoaded [['a']]).1

/-- State after a further `appendLines(["b", "c"])`: "b" fills the resident
buffer, "c" spills into the store loop, which pushes it as array entry 0. -/
def c2state : ChunkState := (appendLines c4state [['b'], ['c']]).1

/-- The full document ingested by the `c2state` trace. -/
def c2doc : List Line := [['a'], ['b'], ['c']]

/-- A session with three full chunks (`chunkSize = 2`, lines a..f) ingested
before any repaint. -/
def c3filled : ChunkState :=
  (appendLines demoBase [['a'], ['b'], ['c'], ['d'], ['e'], ['f']]).1

/-- `c3filled` after the viewer resolves line 0 and the reload for chunk 0
completes: the window is quiescently resident on chunk 0. -/
def c3s0 : ChunkState := completeTask (getChunkedLines ⟨0, 1⟩ c3filled).2 0

/-- First viewport jump: to line 4, i.e. chunk 2 (call it A). -/
def c3s1 : ChunkState := (getChunkedLines ⟨4, 1⟩ c3s0).2

/-- Second viewport jump before A's reload settles: to line 2, chunk 1 (B). -/
def c3s2 : ChunkState := (getChunkedLines ⟨2, 1⟩ c3s1).2

/-- B's reload (queue position 1) settles first. -/
def c3s3 : ChunkState := completeTask c3s2 1

/-- A's stale reload lands last and commits its buffers anyway. -/
def c3s4 : ChunkState := completeTask c3s3 0

/-- A quiescent window resident on chunk 0 with `chunkSize = 50000`:
chunk 0 full, chunk 1 holding the single line "z", `nextBuffer` resident. -/
def c6state : ChunkState :=
  { enabled := true,
    chunks := [joinNl (List.replicate 50000 ['L']), joinNl [['z']]],
    chunkSize := 50000, totalLines := 50001,
    buffer := List.replicate 50000 ['L'], currentChunkIndex := 0,
    prevBuffer := [], nextBuffer := [['z']], pending := [],
    editMode := "navigate", chunkedLineSource := true }

/-- The chunk store faithfully mirrors a document `doc`: `totalLines` counts
its lines, each stored chunk holds the encoded text of the corresponding
chunk-sized slice, and the window is not resident on any chunk
(`currentChunkIndex = -1`, its post-activation value), so appends never take
the resident-buffer fast path. -/
abbrev StoreInv (cs : Nat) (doc : List Line) (s : ChunkState) : Prop :=
  s.chunkSize = cs ∧ s.totalLines = doc.length ∧
  s.chunks = (chunksOf cs doc).map joinNl ∧ s.currentChunkIndex = -1

/- A second append trace, showing the count invariant breaking away from
chunk boundaries when the fast path fires through a buffer that does not
reflect the tail chunk. -/

/-- A `chunkSize = 3` session with four lines ingested (two chunks, the
tail chunk holding one line) before any repaint. -/
def c4stale0 : ChunkState :=
  (appendLines (activate 1 3 initState).1 [['p'], ['q'], ['r'], ['s']]).1

/-- The viewer resolves line 0 and the reload settles: the window is
quiescently resident on chunk 0 with `buffer` holding its three lines. -/
def c4stale1 : ChunkState := completeTask (getChunkedLines ⟨0, 1⟩ c4stale0).2 0

/-- The viewer jumps to line 3 (the tail chunk 1): the miss synchronously
sets `currentChunkIndex := 1` while `buffer` still holds chunk 0's three
lines — a stale resident buffer for the tail chunk. -/
def c4stale2 : ChunkState := (getChunkedLines ⟨3, 1⟩ c4stale1).2

/-- Appending two lines before the reload lands: the fast-path condition
holds (`floor(4/3) = 1 = currentChunkIndex`) but the stale buffer reports
no remaining capacity (`3 - 3 = 0`), so both lines spill past the tail
chunk and are pushed as a new store entry. -/
def c4stale3 : ChunkState := (appendLines c4stale2 [['x'], ['y']]).1

/- ### Codec round-trip lemmas -/

theorem splitNl_ne_nil (t : List Char) : splitNl t ≠ [] := by
  induction t with
  | nil => simp [splitNl]
  | cons c cs ih =>
    rcases h : splitNl cs with _ | ⟨r, rs⟩
    · exact absurd h ih
    · simp only [splitNl, h]
      split <;> simp

theorem splitNl_single (l : Line) (h : '\n' ∉ l) : splitNl l = [l] := by
  induction l with
  | nil => rfl
  | cons c cs ih =>
    have hc : c ≠ '\n' := by intro hc; exact h (hc ▸ List.mem_cons_self c cs)
    have hcs : '\n' ∉ cs := fun hm => h (List.mem_cons_of_mem c hm)
    simp only [splitNl, ih hcs]
    simp [hc]

theorem splitNl_append (l rest : List Char) (r : Line) (rs : List Line)
    (h : '\n' ∉ l) (he : splitNl rest = r :: rs) :
    splitNl (l ++ rest) = (l ++ r) :: rs := by
  induction l with
  | nil => simpa using he
  | cons c cs ih =>
    have hc : c ≠ '\n' := by intro hc; exact h (hc ▸ List.mem_cons_self c cs)
    have hcs : '\n' ∉ cs := fun hm => h (List.mem_cons_of_mem c hm)
    simp only [List.cons_append, splitNl, List.append_eq]
    rw [ih hcs]
    simp [hc]

theorem splitNl_nl_cons (t : List Char) :
    splitNl ('\n' :: t) = [] :: splitNl t := by
  simp only [splitNl]
  rcases h : splitNl t with _ | ⟨r, rs⟩
  · exact absurd h (splitNl_ne_nil t)
  · simp

/-- Codec round trip on nonempty newline-free line sequences (helper). -/
theorem splitNl_joinNl (L : List Line) (h : L ≠ []) (hn : noNl L) :
    splitNl (joinNl L) = L := by
  induction L with
  | nil => exact absurd rfl h
  | cons l L' ih =>
    cases L' with
    | nil => exact splitNl_single l (hn l (List.mem_cons_self l []))
    | cons l2 L'' =>
      have hn' : noNl (l2 :: L'') := fun x hx => hn x (List.mem_cons_of_mem l hx)
      have hIH : splitNl (joinNl (l2 :: L'')) = l2 :: L'' :=
        ih (by simp) hn'
      have hstep : splitNl ('\n' :: joinNl (l2 :: L'')) = [] :: l2 :: L'' := by
        rw [splitNl_nl_cons, hIH]
      have hl : '\n' ∉ l := hn l (List.mem_cons_self l _)
      calc splitNl (joinNl (l :: l2 :: L''))
          = splitNl (l ++ '\n' :: joinNl (l2 :: L'')) := by rfl
        _ = (l ++ []) :: l2 :: L'' := splitNl_append _ _ _ _ hl hstep
        _ = l :: l2 :: L'' := by simp

/-- Claim C1 (amended): for every nonempty finite sequence of lines whose
elements contain no embedded newline character, decompressing the result of
compressing the sequence yields the sequence again. (The empty sequence
does not round-trip — see the counterexample.) -/
theorem codec_round_trip (L : List Line) (h : L ≠ []) (hn : noNl L) :
    splitNl (joinNl L) = L :=
  splitNl_joinNl L h hn

/-- Witness for C1's round trip at a concrete input. -/
theorem codec_round_trip_w :
    splitNl (joinNl [['a', 'b'], ['c']]) = [['a', 'b'], ['c']] :=
  codec_round_trip [['a', 'b'], ['c']] (by decide) (by decide)

/-- Counterexample to C1 as stated: the empty sequence does not round-trip.
`compress []` encodes the empty text, and `decompress` of the empty text is
`[""]` (JS `"".split('\n')`), not `[]`. -/
theorem splitNl_joinNl_nil : splitNl (joinNl []) = [[]] ∧ [[]] ≠ ([] : List Line) := by
  constructor
  · rfl
  · simp

/- ### Guard behaviour: activation and ingestion outside a session -/

/-- Claim C7: `activate` fails exactly when the hosting viewport's line count
is at least the requested chunk size; the failure is synchronous and returns
the prior state completely unchanged (chunks, buffers, counters, mode and
line-source included) together with the configuration error. -/
theorem activate_guard (vpSize size : Nat) (s : ChunkState) :
    ((activate vpSize size s).2.isSome ↔ size ≤ vpSize) ∧
    (size ≤ vpSize → activate vpSize size s = (s, some invalidConfigMsg)) := by
  constructor
  · unfold activate
    split <;> simp_all [ge_iff_le]
  · intro h
    unfold activate
    simp [ge_iff_le, h]

/-- Witness for C7: `activate(5)` with a viewport of 10 lines fails and
leaves the prior state untouched. -/
theorem activate_guard_w : activate 10 5 initState = (initState, some invalidConfigMsg) :=
  (activate_guard 10 5 initState).2 (by decide)

/-- Claim C9: calling `appendLines` outside an active session signals the
distinct "not activated" condition and returns the state unchanged — in
particular `totalLines`, the chunk count and the stored chunks are exactly
as before the call, so the call is an error, not a silent no-op. -/
theorem appendLines_guard (s : ChunkState) (nl : List Line)
    (h : s.enabled = false) :
    appendLines s nl = (s, some notActivatedMsg) := by
  unfold appendLines
  simp [h]

/-- Witness for C9 at the pre-activation state. -/
theorem appendLines_guard_w :
    appendLines initState [['a']] = (initState, some notActivatedMsg) :=
  appendLines_guard initState [['a']] (by decide)

/- ### Staleness of superseded reloads (C3) -/

/-- Claim C3: the source has no staleness guard. In the concrete trace
`c3s0 → c3s4` the viewer jumps to chunk 2 (A) and then, before A's reload
settles, to chunk 1 (B); B's reload completes first and A's stale reload
lands last. The final window state has `currentChunkIndex = 1` (chunk B)
but all three buffers hold chunk A's neighbourhood — `buffer` holds chunk
2's lines, not chunk 1's — so the stale reload was committed, not
discarded, contradicting the required staleness discard. -/
theorem stale_reload_committed :
    c3s4.currentChunkIndex = 1 ∧
    c3s4.pending = [] ∧
    c3s4.buffer = [['e'], ['f']] ∧
    decompressChunk c3s4.chunks 1 = some [['c'], ['d']] ∧
    c3s4.buffer ≠ [['c'], ['d']] := by
  refine ⟨by decide, by decide, by decide, by decide, by decide⟩

/- ### Out-of-bounds chunk reads (C5) -/

/-- Claim C5: the read of the requested chunk performed by the cache-miss
reload is not guarded. In the fresh session `demoMiss` (activate, then the
first repaint resolves lines `[0,1)`), the reload scheduled for chunk 0
reads a chunk that does not exist in the store, and that read fails
(`none`, the rejected decompression of `undefined`) instead of behaving as
an empty chunk; consequently the settled reload assigns no buffer at all. -/
theorem unguarded_read_fails :
    demoMiss.currentChunkIndex = 0 ∧
    demoMiss.pending = [0] ∧
    demoMiss.chunks.length = 0 ∧
    decompressChunk demoMiss.chunks 0 = none ∧
    (completeTask demoMiss 0).buffer = [] := by
  refine ⟨by decide, by decide, by decide, by decide, by decide⟩

/- ### Append counterexamples (C2, C4) -/

/-- Counterexample to C4 as stated: in the reachable state `demoLoaded`
(fresh activation whose first repaint already set `currentChunkIndex = 0`),
appending one line takes the resident-buffer fast path, so `totalLines`
becomes 1 while no chunk is ever written: `chunkCount = 0`, but
`ceil(totalLines/chunkSize) = ceil(1/2) = 1`. -/
theorem append_count_cex :
    c4state.totalLines = 1 ∧
    c4state.chunks.length = 0 ∧
    ceilDivNat c4state.totalLines c4state.chunkSize = 1 ∧
    c4state.chunks.length ≠ ceilDivNat c4state.totalLines c4state.chunkSize := by
  refine ⟨by decide, by decide, by decide, by decide⟩

/-- A second violation of C4 as stated, away from chunk boundaries: in the
reachable state `c4stale2` (window missed onto the tail chunk 1 with its
reload still pending, so `buffer` stale-holds chunk 0's three lines while
`totalLines % chunkSize = 1`), appending two lines leaves both spilled past
the tail chunk and pushed as a third store entry: `chunkCount` becomes 3
while `ceil(totalLines/chunkSize) = ceil(6/3) = 2`. This is why the
amended C4 additionally requires the resident buffer to hold exactly the
tail chunk's ingested lines whenever the fast-path condition holds. -/
theorem append_count_stale_buffer :
    c4stale2.currentChunkIndex = 1 ∧
    c4stale2.totalLines % c4stale2.chunkSize = 1 ∧
    c4stale2.buffer.length = 3 ∧
    c4stale3.totalLines = 6 ∧
    c4stale3.chunks.length = 3 ∧
    ceilDivNat c4stale3.totalLines c4stale3.chunkSize = 2 := by
  refine ⟨by decide, by decide, by decide, by decide, by decide, by decide⟩

/-- Counterexample to C2 as stated: continuing the same trace with
`appendLines(["b", "c"])`, "b" is absorbed by the resident buffer (never
persisted) while "c" spills into the store loop, which pushes it as array
entry 0. The stored chunk 0 then decompresses to `["c"]`, not to the
document's owned range `["a", "b"]` — lines placed into the resident
buffer are not reflected in the stored chunk. -/
theorem chunk_persistence_cex :
    c2state.totalLines = 3 ∧
    c2state.chunks.length = 1 ∧
    decompressChunk c2state.chunks 0 = some [['c']] ∧
    decompressChunk c2state.chunks 0 ≠ some ((c2doc.drop 0).take 2) := by
  refine ⟨by decide, by decide, by decide, by decide⟩

/- ### Resolve shape counterexample (C8) -/

/-- Counterexample to C8 as stated: on a cache-miss call every returned
position is the `"..."` placeholder, including positions whose absolute
index lies outside `[0, totalLines)`. In the fresh session `demoBase`
(`totalLines = 0`), resolving `[0, 2)` yields placeholders, not empty
strings, for the out-of-range positions. -/
theorem resolve_empty_cex :
    demoBase.totalLines = 0 ∧
    (getChunkedLines ⟨0, 2⟩ demoBase).1.getD 0 [] = placeholderLine ∧
    placeholderLine ≠ ([] : Line) := by
  refine ⟨by decide, by decide, by decide⟩

/- ### Boundary resolve counterexample (C6) -/

/-- Counterexample to C6 as stated: with the window resident on chunk 0
(`c6state`, `chunkSize = 50000`), resolving the viewport covering lines
49990..50000 is a cache *hit* — `floor(49990/50000) = 0` — so no
chunk-index transition to 1 occurs and no reload is scheduled. -/
theorem boundary_transition_cex :
    (getChunkedLines ⟨49990, 11⟩ c6state).2.currentChunkIndex = 0 ∧
    (getChunkedLines ⟨49990, 11⟩ c6state).2.pending = [] := by
  have h : (getChunkedLines ⟨49990, 11⟩ c6state).2 = c6state := by
    unfold getChunkedLines
    norm_num [c6state]
  rw [h]
  exact ⟨rfl, rfl⟩

/- ### Reading one row out of the hit-path result -/

theorem range_map_getD (n k : Nat) (f : Nat → Line) (h : k < n) :
    ((List.range n).map f).getD k [] = f k := by
  rw [List.getD_eq_getElem?_getD, List.getElem?_map, List.getElem?_range h]
  rfl

/- ### Chunk-boundary resolve (C6) -/

/-- Claim C6 (amended): with `chunkSize = 50000` and the window resident on
chunk 0 with a nonempty next buffer, resolving the viewport covering lines
49990..50000 is a cache hit — no chunk-index transition and no reload is
triggered, the state is returned unchanged — and the display string for
absolute line 50000 is read from the resident `nextBuffer`, which holds
chunk 1's lines (loaded when the window moved onto chunk 0), not from
chunk 0. -/
theorem boundary_hit (s : ChunkState) (hcs : s.chunkSize = 50000)
    (hcc : s.currentChunkIndex = 0) (hnb : s.nextBuffer ≠ []) :
    (getChunkedLines ⟨49990, 11⟩ s).2 = s ∧
    (getChunkedLines ⟨49990, 11⟩ s).1.getD 10 [] = s.nextBuffer.getD 0 [] := by
  have hdiv : (49990 : Nat) / s.chunkSize = 0 := by rw [hcs]
  have hcond : ¬s.currentChunkIndex ≠ ((49990 / s.chunkSize : Nat) : Int) := by
    rw [hdiv, hcc]; simp
  have hres : getChunkedLines ⟨49990, 11⟩ s = (hitLines ⟨49990, 11⟩ s, s) := by
    unfold getChunkedLines
    dsimp only
    split
    · next hc => exact absurd hc hcond
    · rfl
  refine ⟨by rw [hres], ?_⟩
  rw [hres]
  unfold hitLines
  rw [range_map_getD 11 10 _ (by norm_num)]
  unfold lineAt
  rw [hdiv, hcs]
  norm_num [hnb]

/-- Witness for C6's amended statement on the concrete resident state. -/
theorem boundary_hit_w :
    (getChunkedLines ⟨49990, 11⟩ c6state).2 = c6state ∧
    (getChunkedLines ⟨49990, 11⟩ c6state).1.getD 10 [] = c6state.nextBuffer.getD 0 [] :=
  boundary_hit c6state rfl rfl (by decide)

/- ### Reads between a miss and its reload completion (C10) -/

/-- Claim C10: a cache miss for chunk `R` synchronously sets
`currentChunkIndex := R` but assigns no buffer, so until the reload settles
the three buffers still hold the previously resident chunk's neighbourhood.
Any further resolve whose viewport start still maps to chunk `R` therefore
takes the cache-hit path and returns rows computed by indexing the
pre-miss buffers as though they were chunks `R-1`, `R`, `R+1` — and it
schedules no new reload and changes no state. -/
theorem stale_window_hit (vp vp2 : Viewport) (s : ChunkState)
    (hmiss : s.currentChunkIndex ≠ ((vp.start / s.chunkSize : Nat) : Int))
    (hsame : vp2.start / s.chunkSize = vp.start / s.chunkSize) :
    ((getChunkedLines vp s).2.buffer = s.buffer ∧
      (getChunkedLines vp s).2.prevBuffer = s.prevBuffer ∧
      (getChunkedLines vp s).2.nextBuffer = s.nextBuffer) ∧
    getChunkedLines vp2 (getChunkedLines vp s).2 =
      ((List.range vp2.size).map (fun k =>
        lineAt ((vp.start / s.chunkSize : Nat) : Int) s.prevBuffer s.buffer
          s.nextBuffer s.chunkSize (vp2.start + k)),
       (getChunkedLines vp s).2) := by
  have hfst : (getChunkedLines vp s).2 =
      { s with currentChunkIndex := ((vp.start / s.chunkSize : Nat) : Int),
               pending := s.pending ++ [vp.start / s.chunkSize] } := by
    unfold getChunkedLines
    dsimp only
    split
    · rfl
    · next hc => exact absurd hmiss hc
  refine ⟨⟨by rw [hfst], by rw [hfst], by rw [hfst]⟩, ?_⟩
  rw [hfst]
  unfold getChunkedLines
  dsimp only
  rw [hsame]
  split
  · next hc => exact absurd rfl hc
  · unfold hitLines
    dsimp only
    rw [hsame]

/-- Witness for C10: in the trace of `c3s1` (window was resident on chunk 0,
viewer just jumped to line 4 = chunk 2 and got placeholders), a second
resolve of line 5 — still chunk 2 — takes the hit path over the stale
buffers. -/
theorem stale_window_hit_w :
    ((getChunkedLines ⟨4, 1⟩ c3s0).2.buffer = c3s0.buffer ∧
      (getChunkedLines ⟨4, 1⟩ c3s0).2.prevBuffer = c3s0.prevBuffer ∧
      (getChunkedLines ⟨4, 1⟩ c3s0).2.nextBuffer = c3s0.nextBuffer) ∧
    getChunkedLines ⟨5, 1⟩ (getChunkedLines ⟨4, 1⟩ c3s0).2 =
      ((List.range (1 : Nat)).map (fun k =>
        lineAt ((4 / c3s0.chunkSize : Nat) : Int) c3s0.prevBuffer c3s0.buffer
          c3s0.nextBuffer c3s0.chunkSize (5 + k)),
       (getChunkedLines ⟨4, 1⟩ c3s0).2) :=
  stale_window_hit ⟨4, 1⟩ ⟨5, 1⟩ c3s0 (by decide) (by decide)

/- ### Shape of resolve results (C8) -/

/-- Claim C8 (amended): `resolve` is total and synchronous — it always
returns exactly `viewportSize` display strings and never fails. On a
cache-miss call every position is the `"..."` loading placeholder; on a
cache-hit call whose window buffers are consistent with their chunk labels
(`WindowBounded`), every position with absolute line index at or beyond
`totalLines` resolves to the empty string. -/
theorem resolve_shape (vp : Viewport) (s : ChunkState) :
    (getChunkedLines vp s).1.length = vp.size ∧
    (s.currentChunkIndex ≠ ((vp.start / s.chunkSize : Nat) : Int) →
      (getChunkedLines vp s).1 = List.replicate vp.size placeholderLine) ∧
    (s.currentChunkIndex = ((vp.start / s.chunkSize : Nat) : Int) →
      WindowBounded vp s →
      ∀ k, k < vp.size → s.totalLines ≤ vp.start + k →
        (getChunkedLines vp s).1.getD k [] = []) := by
  refine ⟨?_, ?_, ?_⟩
  · unfold getChunkedLines
    dsimp only
    split
    · simp
    · simp [hitLines]
  · intro hmiss
    unfold getChunkedLines
    dsimp only
    split
    · rfl
    · next hc => exact absurd hmiss hc
  · intro hhit hwb k hk hout
    have hres : (getChunkedLines vp s).1 = hitLines vp s := by
      unfold getChunkedLines
      dsimp only
      split
      · next hc => exact absurd hhit hc
      · rfl
    rw [hres]
    unfold hitLines
    rw [range_map_getD _ _ _ hk]
    set n := vp.start / s.chunkSize with hn
    set i := vp.start + k with hi
    obtain ⟨hwp, hwc, hwn⟩ := hwb
    have hdm : s.chunkSize * (i / s.chunkSize) + i % s.chunkSize = i :=
      Nat.div_add_mod i s.chunkSize
    unfold lineAt
    dsimp only
    split
    · next hc =>
      obtain ⟨hidx, hne⟩ := hc
      rcases hwp with hemp | ⟨hn1, hb⟩
      · exact absurd hemp hne
      · have hid : i / s.chunkSize = n - 1 := by omega
        rw [hid] at hdm
        apply List.getD_eq_default
        have hb' : s.chunkSize * (n - 1) + s.prevBuffer.length ≤ s.totalLines := by
          rw [Nat.mul_comm]; exact hb
        omega
    · split
      · next hc =>
        rcases hwc with hemp | hb
        · rw [hemp]; exact List.getD_nil
        · have hid : i / s.chunkSize = n := by omega
          rw [hid] at hdm
          apply List.getD_eq_default
          have hb' : s.chunkSize * n + s.buffer.length ≤ s.totalLines := by
            rw [Nat.mul_comm]; exact hb
          omega
      · split
        · next hc =>
          obtain ⟨hidx, hne⟩ := hc
          rcases hwn with hemp | hb
          · exact absurd hemp hne
          · have hid : i / s.chunkSize = n + 1 := by omega
            rw [hid] at hdm
            apply List.getD_eq_default
            have hb' : s.chunkSize * (n + 1) + s.nextBuffer.length ≤ s.totalLines := by
              rw [Nat.mul_comm]; exact hb
            omega
        · rfl

/-- Witness for C8's amended statement: in the quiescent window `c3s0`
(`chunkSize = 2`, `totalLines = 6`, resident on chunk 0), resolving the
viewport `[0, 7)` reaches position 6, which is beyond `totalLines` and
resolves to the empty string. -/
theorem resolve_shape_w : (getChunkedLines ⟨0, 7⟩ c3s0).1.getD 6 [] = [] :=
  (resolve_shape ⟨0, 7⟩ c3s0).2.2 (by decide) (by decide) 6
    (by decide) (by decide)

/- ### Arithmetic helpers for chunk counts -/

theorem appendLoop_nil (cs fuel : Nat) (chunks : List (List Char))
    (tl sci spic : Nat) :
    appendLoop cs fuel chunks tl sci spic [] = (chunks, tl) := by
  cases fuel <;> simp [appendLoop]

theorem ceilDivNat_of_mod_eq_zero (cs tl : Nat) (hz : tl % cs = 0) :
    ceilDivNat tl cs = tl / cs := by
  unfold ceilDivNat
  simp [hz]

theorem ceilDivNat_of_mod_ne_zero (cs tl : Nat) (hz : tl % cs ≠ 0) :
    ceilDivNat tl cs = tl / cs + 1 := by
  unfold ceilDivNat
  simp [hz]

theorem ceilDivNat_add_within (cs tl j : Nat) (hcs : 0 < cs)
    (h1 : 1 ≤ tl % cs + j) (h2 : tl % cs + j ≤ cs) :
    ceilDivNat (tl + j) cs = tl / cs + 1 := by
  have hq := Nat.div_add_mod tl cs
  have htj : tl + j = cs * (tl / cs) + (tl % cs + j) := by
    rw [← Nat.add_assoc, hq]
  unfold ceilDivNat
  rw [htj, Nat.mul_add_div hcs, Nat.mul_add_mod]
  rcases Nat.lt_or_ge (tl % cs + j) cs with hlt | hge
  · rw [Nat.div_eq_of_lt hlt, Nat.mod_eq_of_lt hlt]
    have hne : ¬(tl % cs + j = 0) := by omega
    simp [hne]
  · have heq : tl % cs + j = cs := le_antisymm h2 hge
    rw [heq, Nat.div_self hcs, Nat.mod_self]
    simp

theorem writeChunk_length (chunks : List (List Char)) (i : Nat)
    (text : List Char) :
    (writeChunk chunks i text).length =
      if i < chunks.length then chunks.length else chunks.length + 1 := by
  unfold writeChunk
  split <;> simp

/- ### The store loop preserves the chunk-count invariant -/

theorem appendLoop_count (cs : Nat) (hcs : 0 < cs) :
    ∀ (fuel : Nat) (remaining : List Line) (chunks : List (List Char))
      (tl : Nat), remaining.length ≤ fuel →
      chunks.length = ceilDivNat tl cs →
      (appendLoop cs fuel chunks tl (tl / cs) (tl % cs) remaining).2 =
          tl + remaining.length ∧
      (appendLoop cs fuel chunks tl (tl / cs) (tl % cs) remaining).1.length =
          ceilDivNat (tl + remaining.length) cs := by
  intro fuel
  induction fuel with
  | zero =>
    intro remaining chunks tl hfuel hlen
    have hr : remaining = [] := List.length_eq_zero.mp (Nat.le_zero.mp hfuel)
    subst hr
    rw [appendLoop_nil]
    exact ⟨by simp, by simpa using hlen⟩
  | succ fuel ih =>
    intro remaining chunks tl hfuel hlen
    by_cases hr : remaining = []
    · subst hr
      rw [appendLoop_nil]
      exact ⟨by simp, by simpa using hlen⟩
    · have hq := Nat.div_add_mod tl cs
      have hmod : tl % cs < cs := Nat.mod_lt tl hcs
      have hrl : 0 < remaining.length := List.length_pos.mpr hr
      have hwl : ∀ text, (writeChunk chunks (tl / cs) text).length =
          tl / cs + 1 := by
        intro text
        rw [writeChunk_length, hlen]
        by_cases hz : tl % cs = 0
        · rw [ceilDivNat_of_mod_eq_zero cs tl hz]
          simp
        · rw [ceilDivNat_of_mod_ne_zero cs tl hz]
          simp
      rw [appendLoop]
      simp only [hr, if_false]
      by_cases hle : remaining.length ≤ cs - tl % cs
      · simp only [hle, if_true]
        refine ⟨by trivial, ?_⟩
        rw [hwl, ceilDivNat_add_within cs tl remaining.length hcs (by omega)
          (by omega)]
      · simp only [hle, if_false]
        have hspace : 0 < cs - tl % cs := by omega
        have htake : (remaining.take (cs - tl % cs)).length = cs - tl % cs := by
          rw [List.length_take]; omega
        have hceil' : ceilDivNat (tl + (cs - tl % cs)) cs = tl / cs + 1 :=
          ceilDivNat_add_within cs tl (cs - tl % cs) hcs (by omega) (by omega)
        have htl' : tl + (cs - tl % cs) = (tl / cs + 1) * cs := by
          have h5 : (tl / cs + 1) * cs = cs * (tl / cs) + cs := by ring
          rw [h5]
          nth_rewrite 1 [← hq]
          rw [Nat.add_assoc]
          congr 1
          omega
        have hdiv' : (tl + (cs - tl % cs)) / cs = tl / cs + 1 := by
          rw [htl', Nat.mul_div_cancel _ hcs]
        have hmod' : (tl + (cs - tl % cs)) % cs = 0 := by
          rw [htl', Nat.mul_mod_left]
        have hIH := ih (remaining.drop (cs - tl % cs))
          (writeChunk chunks (tl / cs)
            (joinNl ((if tl / cs < chunks.length then
              (decompressChunk chunks (tl / cs)).getD [] else []) ++
              remaining.take (cs - tl % cs))))
          (tl + (cs - tl % cs))
          (by rw [List.length_drop]; omega)
          (by rw [hwl, hceil'])
        rw [hdiv', hmod'] at hIH
        rw [htake]
        refine ⟨?_, ?_⟩
        · rw [hIH.1, List.length_drop]
          omega
        · rw [hIH.2, List.length_drop]
          congr 1
          omega

/- ### Append postconditions (C4) -/

/-- Claim C4 (amended): for an append in an active session whose state
satisfies (i) `chunkCount = ceil(totalLines / chunkSize)` on entry and
(ii) whenever the window is resident on the tail chunk
(`floor(totalLines/chunkSize) = currentChunkIndex`, the fast-path
condition) the resident buffer holds exactly the tail chunk's ingested
lines (`buffer.length = totalLines % chunkSize`), and (iii) which does not
take the fast path exactly at a chunk boundary (`totalLines % chunkSize =
0` with `newLines` nonempty): `totalLines` grows by exactly
`newLines.length` and `chunkCount = ceil(totalLines / chunkSize)` holds
again afterwards. Both extra provisos are necessary: without (iii) a
boundary fast path absorbs lines into the buffer and creates no chunk
(`append_count_cex`), and without (ii) a stale resident buffer makes
appends spill past the tail chunk, pushing a chunk at too high an index
and breaking the invariant off-boundary (`append_count_stale_buffer`). -/
theorem append_counts (s : ChunkState) (nl : List Line)
    (hcs : 0 < s.chunkSize)
    (hcount : s.chunks.length = ceilDivNat s.totalLines s.chunkSize)
    (hbuf : ((s.totalLines / s.chunkSize : Nat) : Int) = s.currentChunkIndex →
      s.buffer.length = s.totalLines % s.chunkSize)
    (hnb : ¬(((s.totalLines / s.chunkSize : Nat) : Int) = s.currentChunkIndex ∧
      s.totalLines % s.chunkSize = 0 ∧ nl ≠ [])) :
    (appendChunkedLines s nl).totalLines = s.totalLines + nl.length ∧
    (appendChunkedLines s nl).chunks.length =
      ceilDivNat (appendChunkedLines s nl).totalLines s.chunkSize := by
  unfold appendChunkedLines
  dsimp only
  by_cases hhot :
      ((s.totalLines / s.chunkSize : Nat) : Int) = s.currentChunkIndex
  · rw [if_pos hhot]
    have hb : s.buffer.length = s.totalLines % s.chunkSize := hbuf hhot
    dsimp only
    by_cases hnl : nl = []
    · subst hnl
      rw [List.take_nil, List.drop_nil, appendLoop_nil]
      exact ⟨by simp, by simpa using hcount⟩
    · have hz : s.totalLines % s.chunkSize ≠ 0 := by
        intro h0
        exact hnb ⟨hhot, h0, hnl⟩
      have hq := Nat.div_add_mod s.totalLines s.chunkSize
      have hmod : s.totalLines % s.chunkSize < s.chunkSize :=
        Nat.mod_lt _ hcs
      rw [hb]
      by_cases hle : nl.length ≤ s.chunkSize - s.totalLines % s.chunkSize
      · have hdropnil :
            nl.drop (s.chunkSize - s.totalLines % s.chunkSize) = [] :=
          List.drop_eq_nil_of_le hle
        have htakeall :
            nl.take (s.chunkSize - s.totalLines % s.chunkSize) = nl :=
          List.take_of_length_le hle
        rw [hdropnil, htakeall, appendLoop_nil]
        refine ⟨by simp, ?_⟩
        dsimp only
        rw [hcount, ceilDivNat_of_mod_ne_zero _ _ hz,
          ceilDivNat_add_within _ _ _ hcs (by omega) (by omega)]
      · have htake :
            (nl.take (s.chunkSize - s.totalLines % s.chunkSize)).length =
              s.chunkSize - s.totalLines % s.chunkSize := by
          rw [List.length_take]; omega
        have htl' : s.totalLines +
            (s.chunkSize - s.totalLines % s.chunkSize) =
            (s.totalLines / s.chunkSize + 1) * s.chunkSize := by
          have h5 : (s.totalLines / s.chunkSize + 1) * s.chunkSize =
              s.chunkSize * (s.totalLines / s.chunkSize) + s.chunkSize := by
            ring
          rw [h5]
          nth_rewrite 1 [← hq]
          rw [Nat.add_assoc]
          congr 1
          omega
        have hdiv' : (s.totalLines +
            (s.chunkSize - s.totalLines % s.chunkSize)) / s.chunkSize =
            s.totalLines / s.chunkSize + 1 := by
          rw [htl', Nat.mul_div_cancel _ hcs]
        have hmod' : (s.totalLines +
            (s.chunkSize - s.totalLines % s.chunkSize)) % s.chunkSize = 0 := by
          rw [htl', Nat.mul_mod_left]
        have hcount' : s.chunks.length = ceilDivNat (s.totalLines +
            (s.chunkSize - s.totalLines % s.chunkSize)) s.chunkSize := by
          rw [ceilDivNat_of_mod_eq_zero _ _ hmod', hdiv', hcount,
            ceilDivNat_of_mod_ne_zero _ _ hz]
        have h := appendLoop_count s.chunkSize hcs
          (nl.drop (s.chunkSize - s.totalLines % s.chunkSize)).length
          (nl.drop (s.chunkSize - s.totalLines % s.chunkSize))
          s.chunks
          (s.totalLines + (s.chunkSize - s.totalLines % s.chunkSize))
          le_rfl hcount'
        rw [hdiv', hmod'] at h
        rw [htake]
        refine ⟨?_, ?_⟩
        · rw [h.1, List.length_drop]
          omega
        · rw [h.2, h.1]
  · rw [if_neg hhot]
    have h := appendLoop_count s.chunkSize hcs nl.length nl s.chunks
      s.totalLines le_rfl hcount
    dsimp only
    exact ⟨h.1, by rw [h.2, h.1]⟩

/-- Witness for C4: appending one line to the quiescent three-chunk session
`c3filled` (`chunkSize = 2`, `totalLines = 6`, window not resident on the
tail chunk) grows `totalLines` to 7 and the chunk count to `ceil(7/2) = 4`. -/
theorem append_counts_w :
    (appendChunkedLines c3filled [['g']]).totalLines =
        c3filled.totalLines + [['g']].length ∧
    (appendChunkedLines c3filled [['g']]).chunks.length =
      ceilDivNat (appendChunkedLines c3filled [['g']]).totalLines
        c3filled.chunkSize :=
  append_counts c3filled [['g']] (by decide) (by decide) (by decide) (by decide)

/- ### Chunk partition lemmas -/

theorem chunksOf_nil (cs : Nat) : chunksOf cs [] = [] := by
  rw [chunksOf]
  simp

theorem chunksOf_cons (cs : Nat) (doc : List Line) (hcs : cs ≠ 0)
    (hd : doc ≠ []) :
    chunksOf cs doc = doc.take cs :: chunksOf cs (doc.drop cs) := by
  rw [chunksOf]
  simp [hcs, hd]

theorem chunksOf_small (cs : Nat) (doc : List Line) (hcs : cs ≠ 0)
    (hd : doc ≠ []) (hle : doc.length ≤ cs) : chunksOf cs doc = [doc] := by
  rw [chunksOf_cons cs doc hcs hd, List.take_of_length_le hle,
    List.drop_eq_nil_of_le hle, chunksOf_nil]

theorem length_ge_of_aligned (cs : Nat) (doc : List Line)
    (hd : doc ≠ []) (h : doc.length % cs = 0) : cs ≤ doc.length := by
  by_contra hlt
  have h1 : 0 < doc.length := List.length_pos.mpr hd
  have h2 : doc.length % cs = doc.length := Nat.mod_eq_of_lt (by omega)
  omega

theorem chunksOf_append_aligned (cs : Nat) (hcs : 0 < cs) :
    ∀ (docA docB : List Line), docA.length % cs = 0 →
      chunksOf cs (docA ++ docB) = chunksOf cs docA ++ chunksOf cs docB := by
  suffices main : ∀ (n : Nat) (docA : List Line), docA.length = n →
      ∀ (docB : List Line), docA.length % cs = 0 →
      chunksOf cs (docA ++ docB) = chunksOf cs docA ++ chunksOf cs docB by
    intro docA docB hal
    exact main docA.length docA rfl docB hal
  intro n
  induction n using Nat.strong_induction_on with
  | _ n ih =>
  intro docA hl docB hal
  by_cases hA : docA = []
  · subst hA
    simp [chunksOf_nil]
  · have hge : cs ≤ docA.length := length_ge_of_aligned cs docA hA hal
    have hAB : docA ++ docB ≠ [] := by simp [hA]
    rw [chunksOf_cons cs (docA ++ docB) (by omega) hAB,
      chunksOf_cons cs docA (by omega) hA,
      List.take_append_of_le_length hge, List.drop_append_of_le_length hge]
    have hdl : (docA.drop cs).length = docA.length - cs := List.length_drop _ _
    have hal' : (docA.drop cs).length % cs = 0 := by
      rw [hdl]
      have hdvd : cs ∣ docA.length := Nat.dvd_of_mod_eq_zero hal
      exact Nat.mod_eq_zero_of_dvd (Nat.dvd_sub' hdvd dvd_rfl)
    have hrec := ih (docA.drop cs).length (by omega) (docA.drop cs)
      rfl docB hal'
    rw [hrec, List.cons_append]

theorem chunksOf_length (cs : Nat) (hcs : 0 < cs) :
    ∀ (doc : List Line), (chunksOf cs doc).length =
      ceilDivNat doc.length cs := by
  suffices main : ∀ (n : Nat) (doc : List Line), doc.length = n →
      (chunksOf cs doc).length = ceilDivNat doc.length cs by
    intro doc
    exact main doc.length doc rfl
  intro n
  induction n using Nat.strong_induction_on with
  | _ n ih =>
  intro doc hl
  by_cases hd : doc = []
  · subst hd
    simp [chunksOf_nil, ceilDivNat]
  · have hpos : 0 < doc.length := List.length_pos.mpr hd
    rw [chunksOf_cons cs doc (by omega) hd]
    by_cases hle : doc.length ≤ cs
    · rw [List.drop_eq_nil_of_le hle, chunksOf_nil]
      rcases Nat.lt_or_ge doc.length cs with hlt | hge
      · unfold ceilDivNat
        rw [Nat.div_eq_of_lt hlt, Nat.mod_eq_of_lt hlt]
        have hne : doc.length ≠ 0 := by omega
        simp [hne]
      · have heq : doc.length = cs := by omega
        unfold ceilDivNat
        rw [heq, Nat.div_self hcs, Nat.mod_self]
        simp
    · have hdl : (doc.drop cs).length = doc.length - cs := List.length_drop _ _
      have hrec := ih (doc.drop cs).length (by omega) (doc.drop cs) rfl
      simp only [List.length_cons, hrec, hdl]
      unfold ceilDivNat
      have hdiv : (doc.length - cs) / cs = doc.length / cs - 1 := by
        have h7 : (doc.length - cs) + cs = doc.length := by omega
        have h8 : doc.length / cs = (doc.length - cs) / cs + 1 := by
          conv_lhs => rw [← h7]
          rw [Nat.add_div_right _ hcs]
        rw [h8]
        simp
      have hmodeq : (doc.length - cs) % cs = doc.length % cs := by
        conv_rhs => rw [show doc.length = doc.length - cs + cs by omega]
        rw [Nat.add_mod_right]
      have hdivpos : 0 < doc.length / cs :=
        Nat.div_pos (by omega) hcs
      rw [hdiv, hmodeq]
      by_cases hz : doc.length % cs = 0
      · simp only [hz, if_pos, Nat.add_zero]
        exact Nat.sub_add_cancel hdivpos
      · simp only [hz, if_neg, if_false]
        rw [Nat.sub_add_cancel hdivpos]

/- ### Decoding the stored tail chunk -/

theorem decompressChunk_eq (chunks : List (List Char)) (i : Nat)
    (h : i < chunks.length) :
    decompressChunk chunks i = (chunks.get? i).map splitNl := by
  unfold decompressChunk
  rw [dif_pos h, List.get?_eq_get h]
  rfl

theorem chunksOf_get? (cs : Nat) (hcs : 0 < cs) :
    ∀ (i : Nat) (doc : List Line), i < (chunksOf cs doc).length →
      (chunksOf cs doc).get? i = some ((doc.drop (i * cs)).take cs) := by
  intro i
  induction i with
  | zero =>
    intro doc h
    have hd : doc ≠ [] := by
      intro he
      rw [he, chunksOf_nil] at h
      simp at h
    rw [chunksOf_cons cs doc (by omega) hd]
    simp
  | succ i ihi =>
    intro doc h
    have hd : doc ≠ [] := by
      intro he
      rw [he, chunksOf_nil] at h
      simp at h
    rw [chunksOf_cons cs doc (by omega) hd] at h ⊢
    rw [List.get?_cons_succ, ihi (doc.drop cs) (by simpa using h),
      List.drop_drop]
    congr 3
    ring

theorem tailChunkRead (cs : Nat) (hcs : 0 < cs) (doc : List Line)
    (hnd : noNl doc) :
    (if doc.length / cs < ((chunksOf cs doc).map joinNl).length then
      (decompressChunk ((chunksOf cs doc).map joinNl)
        (doc.length / cs)).getD []
     else []) = doc.drop (doc.length / cs * cs) := by
  have hlen : ((chunksOf cs doc).map joinNl).length =
      ceilDivNat doc.length cs := by
    rw [List.length_map, chunksOf_length cs hcs]
  have hq2 : doc.length / cs * cs + doc.length % cs = doc.length := by
    rw [Nat.mul_comm]
    exact Nat.div_add_mod doc.length cs
  have hsub : doc.length - doc.length / cs * cs = doc.length % cs := by
    nth_rewrite 1 [← hq2]
    rw [Nat.add_sub_cancel_left]
  have hdrop_len : (doc.drop (doc.length / cs * cs)).length =
      doc.length % cs := by
    rw [List.length_drop, hsub]
  by_cases hz : doc.length % cs = 0
  · have hcond : ¬(doc.length / cs <
        ((chunksOf cs doc).map joinNl).length) := by
      rw [hlen, ceilDivNat_of_mod_eq_zero _ _ hz]
      exact lt_irrefl _
    rw [if_neg hcond]
    symm
    rw [← List.length_eq_zero, hdrop_len, hz]
  · have hql : doc.length / cs < ((chunksOf cs doc).map joinNl).length := by
      rw [hlen, ceilDivNat_of_mod_ne_zero _ _ hz]
      exact Nat.lt_succ_self _
    have hql' : doc.length / cs < (chunksOf cs doc).length := by
      rwa [List.length_map] at hql
    rw [if_pos hql, decompressChunk_eq _ _ hql, List.get?_map,
      chunksOf_get? cs hcs _ doc hql']
    have hRle : (doc.drop (doc.length / cs * cs)).length ≤ cs := by
      rw [hdrop_len]
      exact le_of_lt (Nat.mod_lt _ hcs)
    rw [Option.map_some', List.take_of_length_le hRle, Option.map_some',
      Option.getD_some]
    apply splitNl_joinNl
    · rw [← List.length_pos, hdrop_len]
      exact Nat.pos_of_ne_zero hz
    · intro l hl
      exact hnd l (List.drop_subset _ _ hl)

/- ### Writing the extended tail chunk back -/

theorem set_last (A : List (List Char)) (x y : List Char) :
    (A ++ [x]).set A.length y = A ++ [y] := by
  induction A with
  | nil => rfl
  | cons a as ih => simp [List.set, ih]

theorem writeTail (cs : Nat) (hcs : 0 < cs) (doc add : List Line)
    (hne : add ≠ []) (hfit : doc.length % cs + add.length ≤ cs) :
    writeChunk ((chunksOf cs doc).map joinNl) (doc.length / cs)
        (joinNl (doc.drop (doc.length / cs * cs) ++ add)) =
      (chunksOf cs (doc ++ add)).map joinNl := by
  have hq2 : doc.length / cs * cs + doc.length % cs = doc.length := by
    rw [Nat.mul_comm]
    exact Nat.div_add_mod doc.length cs
  have hsub : doc.length - doc.length / cs * cs = doc.length % cs := by
    nth_rewrite 1 [← hq2]
    rw [Nat.add_sub_cancel_left]
  have hta : (doc.take (doc.length / cs * cs)).length =
      doc.length / cs * cs := by
    rw [List.length_take]
    exact Nat.min_eq_left (Nat.div_mul_le_self _ _)
  have hsplit : doc.take (doc.length / cs * cs) ++
      doc.drop (doc.length / cs * cs) = doc := List.take_append_drop _ _
  have hal : (doc.take (doc.length / cs * cs)).length % cs = 0 := by
    rw [hta, Nat.mul_mod_left]
  have hdecomp : chunksOf cs doc =
      chunksOf cs (doc.take (doc.length / cs * cs)) ++
      chunksOf cs (doc.drop (doc.length / cs * cs)) := by
    conv_lhs => rw [← hsplit]
    exact chunksOf_append_aligned cs hcs _ _ hal
  have hAlen : (chunksOf cs (doc.take (doc.length / cs * cs))).length =
      doc.length / cs := by
    rw [chunksOf_length cs hcs, hta,
      ceilDivNat_of_mod_eq_zero _ _ (Nat.mul_mod_left _ _),
      Nat.mul_div_cancel _ hcs]
  have hdrop_len : (doc.drop (doc.length / cs * cs)).length =
      doc.length % cs := by
    rw [List.length_drop, hsub]
  have hdecomp2 : chunksOf cs (doc ++ add) =
      chunksOf cs (doc.take (doc.length / cs * cs)) ++
      chunksOf cs (doc.drop (doc.length / cs * cs) ++ add) := by
    conv_lhs => rw [← hsplit, List.append_assoc]
    exact chunksOf_append_aligned cs hcs _ _ hal
  have htail2 : chunksOf cs (doc.drop (doc.length / cs * cs) ++ add) =
      [doc.drop (doc.length / cs * cs) ++ add] := by
    apply chunksOf_small cs _ (by omega)
    · simp [hne]
    · rw [List.length_append, hdrop_len]
      exact hfit
  by_cases hz : doc.length % cs = 0
  · have hRnil : doc.drop (doc.length / cs * cs) = [] := by
      rw [← List.length_eq_zero, hdrop_len, hz]
    rw [hdecomp, hdecomp2, htail2, hRnil, chunksOf_nil, List.append_nil]
    unfold writeChunk
    simp only [List.length_map, hAlen, lt_irrefl, if_false]
    rw [List.map_append]
    simp
  · have hRne : doc.drop (doc.length / cs * cs) ≠ [] := by
      rw [← List.length_pos, hdrop_len]
      exact Nat.pos_of_ne_zero hz
    have hRsmall : chunksOf cs (doc.drop (doc.length / cs * cs)) =
        [doc.drop (doc.length / cs * cs)] := by
      apply chunksOf_small cs _ (by omega) hRne
      rw [hdrop_len]
      exact le_of_lt (Nat.mod_lt _ hcs)
    have hAlen' : ((chunksOf cs (doc.take (doc.length / cs * cs))).map
        joinNl).length = doc.length / cs := by
      rw [List.length_map, hAlen]
    have hset := set_last
      ((chunksOf cs (doc.take (doc.length / cs * cs))).map joinNl)
      (joinNl (doc.drop (doc.length / cs * cs)))
      (joinNl (doc.drop (doc.length / cs * cs) ++ add))
    rw [hAlen'] at hset
    rw [hdecomp, hRsmall]
    unfold writeChunk
    simp only [List.map_append, List.length_append, List.length_map, hAlen,
      List.map_cons, List.map_nil, List.length_cons, List.length_nil]
    rw [if_pos (by omega)]
    rw [hset, hdecomp2, htail2, List.map_append]
    simp

/- ### The store loop persists exactly the appended lines -/

theorem appendLoop_content (cs : Nat) (hcs : 0 < cs) :
    ∀ (fuel : Nat) (remaining doc : List Line),
      remaining.length ≤ fuel → noNl doc → noNl remaining →
      appendLoop cs fuel ((chunksOf cs doc).map joinNl) doc.length
          (doc.length / cs) (doc.length % cs) remaining =
        ((chunksOf cs (doc ++ remaining)).map joinNl,
         doc.length + remaining.length) := by
  intro fuel
  induction fuel with
  | zero =>
    intro remaining doc hfuel hnd hnr
    have hr : remaining = [] := List.length_eq_zero.mp (Nat.le_zero.mp hfuel)
    subst hr
    rw [appendLoop_nil]
    simp
  | succ fuel ih =>
    intro remaining doc hfuel hnd hnr
    by_cases hr : remaining = []
    · subst hr
      rw [appendLoop_nil]
      simp
    · have hmod : doc.length % cs < cs := Nat.mod_lt _ hcs
      have hrl : 0 < remaining.length := List.length_pos.mpr hr
      rw [appendLoop]
      simp only [hr, if_false]
      rw [tailChunkRead cs hcs doc hnd]
      by_cases hle : remaining.length ≤ cs - doc.length % cs
      · simp only [hle, if_true]
        rw [writeTail cs hcs doc remaining hr (by omega)]
      · simp only [hle, if_false]
        have htake : (remaining.take (cs - doc.length % cs)).length =
            cs - doc.length % cs := by
          rw [List.length_take]; omega
        have htne : remaining.take (cs - doc.length % cs) ≠ [] := by
          rw [← List.length_pos, htake]
          omega
        rw [writeTail cs hcs doc (remaining.take (cs - doc.length % cs)) htne
          (by rw [htake]; omega)]
        have hdl : (doc ++ remaining.take (cs - doc.length % cs)).length =
            doc.length + (cs - doc.length % cs) := by
          rw [List.length_append, htake]
        have hq2 : doc.length / cs * cs + doc.length % cs = doc.length := by
          rw [Nat.mul_comm]
          exact Nat.div_add_mod doc.length cs
        have htl' : doc.length + (cs - doc.length % cs) =
            (doc.length / cs + 1) * cs := by
          have h5 : (doc.length / cs + 1) * cs = doc.length / cs * cs + cs := by
            ring
          omega
        have hdiv' : (doc.length + (cs - doc.length % cs)) / cs =
            doc.length / cs + 1 := by
          rw [htl', Nat.mul_div_cancel _ hcs]
        have hmod' : (doc.length + (cs - doc.length % cs)) % cs = 0 := by
          rw [htl', Nat.mul_mod_left]
        have hIH := ih (remaining.drop (cs - doc.length % cs))
          (doc ++ remaining.take (cs - doc.length % cs))
          (by rw [List.length_drop]; omega)
          (by
            intro l hl
            rcases List.mem_append.mp hl with h1 | h2
            · exact hnd l h1
            · exact hnr l (List.take_subset _ _ h2))
          (fun l hl => hnr l (List.drop_subset _ _ hl))
        rw [hdl, hdiv', hmod'] at hIH
        have happ : (doc ++ remaining.take (cs - doc.length % cs)) ++
            remaining.drop (cs - doc.length % cs) = doc ++ remaining := by
          rw [List.append_assoc, List.take_append_drop]
        rw [happ] at hIH
        have hsum : doc.length + (cs - doc.length % cs) +
            (remaining.drop (cs - doc.length % cs)).length =
            doc.length + remaining.length := by
          rw [List.length_drop]
          omega
        rw [hsum] at hIH
        rw [htake]
        exact hIH

/- ### Append preserves the store invariant in sessions without a resident tail -/

theorem append_step_inv (cs : Nat) (hcs : 0 < cs) (doc b : List Line)
    (s : ChunkState) (hs : StoreInv cs doc s) (hnd : noNl doc)
    (hnb : noNl b) : StoreInv cs (doc ++ b) (appendChunkedLines s b) := by
  obtain ⟨hc, ht, hk, hcc⟩ := hs
  unfold appendChunkedLines
  dsimp only
  have hcond : ¬(((s.totalLines / s.chunkSize : Nat) : Int) =
      s.currentChunkIndex) := by
    rw [hcc]
    intro h
    have hge : (0 : Int) ≤ ((s.totalLines / s.chunkSize : Nat) : Int) :=
      Int.natCast_nonneg _
    omega
  rw [if_neg hcond, hc, ht, hk]
  rw [appendLoop_content cs hcs b.length b doc le_rfl hnd hnb]
  refine ⟨rfl, by simp, rfl, hcc⟩

theorem appendAll_inv (cs : Nat) (hcs : 0 < cs) :
    ∀ (bs : List (List Line)) (doc : List Line) (s : ChunkState),
      StoreInv cs doc s → noNl doc → (∀ b ∈ bs, noNl b) →
      StoreInv cs (doc ++ bs.flatten) (appendAll s bs) := by
  intro bs
  induction bs with
  | nil =>
    intro doc s hs _ _
    simpa [appendAll] using hs
  | cons b bs ih =>
    intro doc s hs hnd hnb
    have h1 := append_step_inv cs hcs doc b s hs hnd (hnb b (by simp))
    have h2 := ih (doc ++ b) (appendChunkedLines s b) h1
      (by
        intro l hl
        rcases List.mem_append.mp hl with ha | hb
        · exact hnd l ha
        · exact hnb b (by simp) l hb)
      (fun b' hb' => hnb b' (by simp [hb']))
    simpa [appendAll, List.append_assoc] using h2

theorem lt_mul_of_lt_ceilDivNat (cs L i : Nat) (hcs : 0 < cs)
    (h : i < ceilDivNat L cs) : i * cs < L := by
  have h2 : L / cs * cs + L % cs = L := by
    rw [Nat.mul_comm]
    exact Nat.div_add_mod L cs
  unfold ceilDivNat at h
  by_cases hz : L % cs = 0
  · simp only [hz, if_pos, Nat.add_zero] at h
    have h3 : (i + 1) * cs ≤ L / cs * cs := Nat.mul_le_mul_right cs h
    have h4 : (i + 1) * cs = i * cs + cs := by ring
    omega
  · simp only [hz, if_neg, if_false] at h
    have h5 : i ≤ L / cs := by omega
    have h1 : i * cs ≤ L / cs * cs := Nat.mul_le_mul_right cs h5
    have h6 : 0 < L % cs := Nat.pos_of_ne_zero hz
    omega

/-- Claim C2 (amended): in a session where the window never becomes resident
on the tail chunk — here, a fresh session into which batches are ingested
with no intervening resolve, so `currentChunkIndex` stays `-1` and the
resident-buffer fast path is never taken — every line ingested by append is
persisted: for every chunk index `i < chunkCount`, decompressing stored
chunk `i` yields exactly the document's lines in its owned range
`[i*chunkSize, min((i+1)*chunkSize, totalLines))`. (Lines absorbed by the
resident-buffer fast path, by contrast, are not written to the store — see
the counterexample.) -/
theorem chunk_persistence (cs : Nat) (bs : List (List Line)) (hcs : 1 ≤ cs)
    (hnl : ∀ b ∈ bs, noNl b) :
    ∀ i, i < (appendAll (freshActive cs) bs).chunks.length →
      decompressChunk (appendAll (freshActive cs) bs).chunks i =
        some ((bs.flatten.drop (i * cs)).take cs) := by
  have hs0 : StoreInv cs [] (freshActive cs) := by
    refine ⟨rfl, rfl, ?_, rfl⟩
    rw [chunksOf_nil]
    rfl
  have hinv := appendAll_inv cs hcs bs [] (freshActive cs) hs0
    (by intro l hl; simp at hl) hnl
  rw [List.nil_append] at hinv
  obtain ⟨hc, ht, hk, hcc⟩ := hinv
  intro i hi
  rw [hk] at hi ⊢
  have hi' : i < (chunksOf cs bs.flatten).length := by
    rwa [List.length_map] at hi
  rw [decompressChunk_eq _ _ hi, List.get?_map,
    chunksOf_get? cs hcs i bs.flatten hi', Option.map_some',
    Option.map_some']
  congr 1
  have hicl : i < ceilDivNat bs.flatten.length cs := by
    rwa [chunksOf_length cs hcs] at hi'
  have hlb : i * cs < bs.flatten.length :=
    lt_mul_of_lt_ceilDivNat cs _ i hcs hicl
  apply splitNl_joinNl
  · rw [← List.length_pos, List.length_take, List.length_drop]
    omega
  · intro l hl
    have h2 : l ∈ bs.flatten :=
      List.drop_subset _ _ (List.take_subset _ _ hl)
    obtain ⟨b, hb, hlb2⟩ := List.mem_flatten.mp h2
    exact hnl b hb l hlb2

/-- Witness for C2's amended statement: ingesting the batch
`["a", "b", "c"]` into a fresh `chunkSize = 2` session stores chunk 0 as
exactly the document's first two lines. -/
theorem chunk_persistence_w :
    decompressChunk (appendAll (freshActive 2) [[['a'], ['b'], ['c']]]).chunks
        0 = some ((([[['a'], ['b'], ['c']]] : List (List Line)).flatten.drop
          (0 * 2)).take 2) :=
  chunk_persistence 2 [[['a'], ['b'], ['c']]] (by decide) (by decide) 0
    (by decide)
